import Mathlib

/-!
Verification of the Loop-tree intermediate representation and its transforms
(`qupulse/_program/_loop.py`): the `Loop` node with cached body durations,
measurement windows, volatile repetition parameters, the structural transforms
(cleanup, single-child merge, child split, unroll), AWG-compatibility analysis
and rewriting, and the instruction-block lowering driver of
`MultiChannelProgram` with channel splitting.

Durations are exact rationals (the Python `TimeType`), channel identifiers are
naturals, channel sets are `Finset ℕ`.  Mutable tree updates are modelled by
rebuilding the tree functionally; the cached-duration invalidation logic of
`Loop._invalidate_duration` is carried explicitly in each modelled mutation.
-/

/- ## Symbolic repetition parameters (`MappedParameter`) -/

/-- Expression tree of a `MappedParameter`: integer constants, named constants
from the parameter's namespace, difference and product (the only operations the
core applies to repetition expressions). -/
inductive PExpr where
  | const (n : ℤ)
  | var (name : String)
  | sub (a b : PExpr)
  | mul (a b : PExpr)
deriving DecidableEq

/-- Modelled from the spec: a `MappedParameter` is a symbolic integer-valued
expression over a namespace of named constants; namespace entries may
themselves be `MappedParameter`s (as built by `Loop._merge_single_child`). -/
inductive MappedParameter where
  | mk (expression : PExpr) (ns : List (String × MappedParameter))

def MappedParameter.expression : MappedParameter → PExpr
  | .mk e _ => e

def MappedParameter.ns : MappedParameter → List (String × MappedParameter)
  | .mk _ n => n

mutual

/-- Modelled from the spec: `MappedParameter.get_value` evaluates the
expression over the namespace.  A name missing from the namespace evaluates to
0 (the Python code would fail there; the core only evaluates well-formed
parameters). -/
def MappedParameter.getValue : MappedParameter → ℤ
  | .mk e ns => PExpr.evalIn e ns

def PExpr.evalIn : PExpr → List (String × MappedParameter) → ℤ
  | .const n, _ => n
  | .var s, ns => PExpr.lookupVal s ns
  | .sub a b, ns => PExpr.evalIn a ns - PExpr.evalIn b ns
  | .mul a b, ns => PExpr.evalIn a ns * PExpr.evalIn b ns

def PExpr.lookupVal : String → List (String × MappedParameter) → ℤ
  | _, [] => 0
  | s, (n, p) :: rest => if n = s then MappedParameter.getValue p else PExpr.lookupVal s rest

end

/- ## Waveforms -/

/-- Modelled from the spec: an opaque `Waveform` value carries a rational
`duration` and a set of `defined_channels`; `SequenceWaveform` concatenates and
`RepetitionWaveform` repeats (the constructors used by `to_waveform`). -/
inductive Waveform where
  | atom (uid : ℕ) (dur : ℚ) (channels : Finset ℕ)
  | seq (ws : List Waveform)
  | rep (w : Waveform) (count : ℤ)

mutual

def Waveform.duration : Waveform → ℚ
  | .atom _ d _ => d
  | .seq ws => Waveform.durationSum ws
  | .rep w n => n * Waveform.duration w

def Waveform.durationSum : List Waveform → ℚ
  | [] => 0
  | w :: ws => Waveform.duration w + Waveform.durationSum ws

end

mutual

def Waveform.definedChannels : Waveform → Finset ℕ
  | .atom _ _ cs => cs
  | .seq ws => Waveform.definedChannelsList ws
  | .rep w _ => Waveform.definedChannels w

def Waveform.definedChannelsList : List Waveform → Finset ℕ
  | [] => ∅
  | w :: ws => Waveform.definedChannels w ∪ Waveform.definedChannelsList ws

end

/- ## Measurement windows -/

/-- A measurement window `(name, begin, length)`. -/
structure MeasurementWindow where
  name : String
  begin : ℚ
  len : ℚ
deriving DecidableEq

/- ## The Loop node -/

/-- The `Loop` tree node: optional waveform payload, optional measurement
list, repetition count, optional volatile repetition parameter, the memoized
`_cached_body_duration`, and the ordered children. -/
inductive Loop where
  | mk (waveform : Option Waveform)
       (measurements : Option (List MeasurementWindow))
       (repetitionCount : ℤ)
       (repetitionParameter : Option MappedParameter)
       (cachedBodyDuration : Option ℚ)
       (children : List Loop)

def Loop.waveform : Loop → Option Waveform
  | .mk w _ _ _ _ _ => w

def Loop.measurements : Loop → Option (List MeasurementWindow)
  | .mk _ m _ _ _ _ => m

def Loop.repetitionCount : Loop → ℤ
  | .mk _ _ r _ _ _ => r

def Loop.repetitionParameter : Loop → Option MappedParameter
  | .mk _ _ _ p _ _ => p

def Loop.cachedBodyDuration : Loop → Option ℚ
  | .mk _ _ _ _ cache _ => cache

def Loop.children : Loop → List Loop
  | .mk _ _ _ _ _ c => c

/-- `Loop.is_leaf`: no children. -/
def Loop.isLeaf (l : Loop) : Bool := l.children.isEmpty

/-- Python truthiness of `self._measurements`: a non-`None`, non-empty list. -/
def Loop.measNonempty (l : Loop) : Bool :=
  match l.measurements with
  | none => false
  | some ms => !ms.isEmpty

mutual

/-- Mirrors `Loop.body_duration`: the memoized value if present, otherwise the
waveform duration (or 0) on a leaf and the sum of child durations on an inner
node.  Child durations again consult the children's caches. -/
def Loop.bodyDuration : Loop → ℚ
  | .mk w _ _ _ cache c =>
    match cache with
    | some d => d
    | none =>
      match c with
      | [] =>
        match w with
        | some wf => wf.duration
        | none => 0
      | c0 :: cs => Loop.durationSum (c0 :: cs)

/-- Sum of `child.duration` over a child list, as iterated by
`Loop.body_duration`. -/
def Loop.durationSum : List Loop → ℚ
  | [] => 0
  | l :: ls => Loop.bodyDuration l * l.repetitionCount + Loop.durationSum ls

end

/-- Mirrors `Loop.duration = body_duration * repetition_count`. -/
def Loop.duration (l : Loop) : ℚ := l.bodyDuration * l.repetitionCount

mutual

/-- The body duration recomputed from scratch, ignoring every cache. -/
def Loop.freshBodyDuration : Loop → ℚ
  | .mk w _ _ _ _ c =>
    match c with
    | [] =>
      match w with
      | some wf => wf.duration
      | none => 0
    | c0 :: cs => Loop.freshDurationSum (c0 :: cs)

def Loop.freshDurationSum : List Loop → ℚ
  | [] => 0
  | l :: ls => Loop.freshBodyDuration l * l.repetitionCount + Loop.freshDurationSum ls

end

mutual

/-- Every memoized `_cached_body_duration` in the tree agrees with a fresh
recomputation (spec §3.5 invariant 4: caches are kept consistent). -/
def Loop.wellCached : Loop → Bool
  | .mk w m r p cache c =>
    (match cache with
     | none => true
     | some d => d == Loop.freshBodyDuration (.mk w m r p none c)) &&
    Loop.wellCachedList c

def Loop.wellCachedList : List Loop → Bool
  | [] => true
  | l :: ls => Loop.wellCached l && Loop.wellCachedList ls

end

/- ## Field updates with the cache behaviour of the source setters -/

/-- Mirrors `Loop.__setitem__` (slice assignment to the child list): replaces
the children and fully invalidates this node's cached duration. -/
def Loop.setChildren : Loop → List Loop → Loop
  | .mk w m r p _ _, cs => .mk w m r p none cs

/-- Mirrors the `Loop.waveform` setter: assigns and fully invalidates this
node's cached duration. -/
def Loop.setWaveform : Loop → Option Waveform → Loop
  | .mk _ m r p _ c, w => .mk w m r p none c

/-- Mirrors the `Loop.repetition_count` setter for an integer value: assigns
the count.  The source setter does not touch the duration cache. -/
def Loop.setRepetitionCount : Loop → ℤ → Loop
  | .mk w m _ p cache c, r => .mk w m r p cache c

/-- Direct assignment to `_repetition_parameter` (no cache interaction). -/
def Loop.withRepetitionParameter : Loop → Option MappedParameter → Loop
  | .mk w m r _ cache c, p => .mk w m r p cache c

/-- Direct assignment to `_measurements` (no cache interaction). -/
def Loop.withMeasurements : Loop → Option (List MeasurementWindow) → Loop
  | .mk w _ r p cache c, m => .mk w m r p cache c

mutual

/-- Mirrors `Loop.copy_tree_structure`: rebuilds the subtree through the
constructor, so every cached duration of the copy starts out empty and the
measurement lists are (value-equal) copies. -/
def Loop.copyTreeStructure : Loop → Loop
  | .mk w m r p _ c => .mk w m r p none (Loop.copyTreeStructureList c)

def Loop.copyTreeStructureList : List Loop → List Loop
  | [] => []
  | l :: ls => Loop.copyTreeStructure l :: Loop.copyTreeStructureList ls

end

/- ## Construction (`Loop.__init__`) -/

/-- Python `int()` on a rational: truncation toward zero. -/
def pyInt (q : ℚ) : ℤ := if 0 ≤ q then ⌊q⌋ else ⌈q⌉

/-- Mirrors `Loop.__init__`: stores the payloads, sets
`_repetition_count = int(repetition_count)` from the *argument* (the
`repetition_parameter` is stored but not consulted), starts with an empty
duration cache, and fails (the source `assert`) when the given repetition
count is not an integer. -/
def Loop.new (waveform : Option Waveform) (measurements : Option (List MeasurementWindow))
    (repetitionCount : ℚ) (repetitionParameter : Option MappedParameter)
    (children : List Loop) : Except String Loop :=
  let rc : ℤ := pyInt repetitionCount
  if (rc : ℚ) = repetitionCount then
    .ok (Loop.mk waveform measurements rc repetitionParameter none children)
  else
    .error "Repetition count was not an integer"

/- ## Diagnostics -/

/-- The non-fatal warning kinds emitted by the core. -/
inductive QuWarning where
  | droppedMeasurement
  | volatileModification
  | makeCompatibleAction
deriving DecidableEq

/- ## Single-child merge -/

/-- Mirrors `Loop._has_single_child_that_can_be_merged`: exactly one child and
either no (truthy) measurements on this node, or the child has repetition
count 1 and is non-volatile. -/
def Loop.hasSingleChildThatCanBeMerged (l : Loop) : Bool :=
  match l.children with
  | [child] =>
    !l.measNonempty || (child.repetitionCount == 1 && child.repetitionParameter.isNone)
  | _ => false

/-- Mirrors `Loop._merge_single_child`: lift the single child into this node.
The source `assert`s guard the call sites (`cleanup`, `flatten_and_balance`);
on a node without exactly one child the model returns the node unchanged. -/
def Loop.mergeSingleChild (l : Loop) : Loop :=
  match l.children with
  | [child] =>
    let measurements :=
      if l.measNonempty then
        match child.measurements with
        | some cm => if cm.isEmpty then l.measurements else some (cm ++ l.measurements.getD [])
        | none => l.measurements
      else child.measurements
    let repetitionParameter :=
      match l.repetitionParameter, child.repetitionParameter with
      | none, none => none
      | none, some cp =>
        some (MappedParameter.mk (PExpr.mul cp.expression (PExpr.const child.repetitionCount)) cp.ns)
      | some sp, none =>
        some (MappedParameter.mk (PExpr.mul sp.expression (PExpr.const l.repetitionCount)) sp.ns)
      | some sp, some cp =>
        some (MappedParameter.mk
          (PExpr.mul (PExpr.var "parent_repetition_count") (PExpr.var "child_repetition_count"))
          [("parent_repetition_count", sp), ("child_repetition_count", cp)])
    Loop.mk child.waveform measurements (l.repetitionCount * child.repetitionCount)
      repetitionParameter none child.children
  | _ => l

/- ## Cleanup -/

/-- The `actions` argument of `Loop.cleanup`. -/
structure CleanupActions where
  removeEmptyLoops : Bool
  mergeSingleChild : Bool

mutual

/-- Mirrors `Loop.cleanup`: with `remove_empty_loops`, walk the children in
order, dropping waveform-less leaves (warning when they carried measurements)
and recursively cleaned children that end up empty; the child list (and with
it this node's duration cache) is reassigned only when the length changed.
Afterwards, with `merge_single_child`, merge a mergeable single child. -/
def Loop.cleanup (act : CleanupActions) : Loop → Loop × List QuWarning
  | .mk w m r p cache c =>
    if act.removeEmptyLoops then
      let (kept, warns) := Loop.cleanupChildren act c
      let cache' := if kept.length == c.length then cache else none
      let l1 := Loop.mk w m r p cache' kept
      if act.mergeSingleChild && l1.hasSingleChildThatCanBeMerged then
        (l1.mergeSingleChild, warns)
      else (l1, warns)
    else
      let (newChildren, warns) := Loop.cleanupEach act c
      let l1 := Loop.mk w m r p cache newChildren
      if act.mergeSingleChild && l1.hasSingleChildThatCanBeMerged then
        (l1.mergeSingleChild, warns)
      else (l1, warns)

/-- The `remove_empty_loops` filtering pass over the children, left to right. -/
def Loop.cleanupChildren (act : CleanupActions) : List Loop → List Loop × List QuWarning
  | [] => ([], [])
  | child :: rest =>
    if child.isLeaf then
      if child.waveform.isNone then
        let ws := if child.measNonempty then [QuWarning.droppedMeasurement] else []
        let (restKept, restW) := Loop.cleanupChildren act rest
        (restKept, ws ++ restW)
      else
        let (restKept, restW) := Loop.cleanupChildren act rest
        (child :: restKept, restW)
    else
      let (child', w1) := child.cleanup act
      if child'.waveform.isSome || !child'.isLeaf then
        let (restKept, restW) := Loop.cleanupChildren act rest
        (child' :: restKept, w1 ++ restW)
      else if child'.measNonempty then
        let (restKept, restW) := Loop.cleanupChildren act rest
        (restKept, w1 ++ [QuWarning.droppedMeasurement] ++ restW)
      else
        let (restKept, restW) := Loop.cleanupChildren act rest
        (restKept, w1 ++ restW)

/-- The recursion-only pass taken when `remove_empty_loops` is not among the
actions. -/
def Loop.cleanupEach (act : CleanupActions) : List Loop → List Loop × List QuWarning
  | [] => ([], [])
  | child :: rest =>
    let (child', w) := child.cleanup act
    let (rest', ws) := Loop.cleanupEach act rest
    (child' :: rest', w ++ ws)

end

/- ## Measurement insertion and the float boundary -/

/-- The exponent `k` with `2 ^ k ≤ q < 2 ^ (k + 1)` for a positive rational,
computed from the bit lengths of numerator and denominator with a single
downward correction. -/
def ilog2 (q : ℚ) : ℤ :=
  let a : ℤ := (Nat.log 2 q.num.natAbs : ℤ) - (Nat.log 2 q.den : ℤ)
  if q < (2 : ℚ) ^ a then a - 1 else a

/-- Round a rational to the nearest integer, ties to even. -/
def roundHalfEven (q : ℚ) : ℤ :=
  let f := ⌊q⌋
  let r := q - f
  if r < 1 / 2 then f
  else if 1 / 2 < r then f + 1
  else if f % 2 = 0 then f else f + 1

/-- Models the Python `float()` conversion applied to a `TimeType`: IEEE-754
binary64 round-to-nearest-even, i.e. rounding to 53 significant bits.  Valid
in the normal range, which covers every duration the core handles. -/
def floatOfRat (q : ℚ) : ℚ :=
  if q = 0 then 0
  else
    let a := |q|
    let e : ℤ := ilog2 a - 52
    let m : ℤ := roundHalfEven (a * (2 : ℚ) ^ (-e))
    (if q < 0 then -1 else 1) * m * (2 : ℚ) ^ e

/-- Mirrors `Loop.add_measurements`: the node's body duration is flattened to
a double-precision float; when it is non-zero every appended window's begin is
offset by that float.  The rounded offset is then added exactly (a second
IEEE rounding of the sum is not modelled). -/
def Loop.addMeasurements (l : Loop) (ms : List MeasurementWindow) : Loop :=
  let bd := floatOfRat l.bodyDuration
  let ms' := if bd = 0 then ms
             else ms.map (fun mw => MeasurementWindow.mk mw.name (mw.begin + bd) mw.len)
  match l.measurements with
  | none => l.withMeasurements (some ms')
  | some old => l.withMeasurements (some (old ++ ms'))

/- ## Child split (`Loop.split_one_child`) -/

/-- The candidate scan of `Loop.split_one_child` without an explicit index:
iterate the reverse enumeration; a non-volatile child with repetition count
above 1 is chosen immediately, the first volatile one encountered is recorded
as fallback. -/
def Loop.selectSplitAux : List (ℕ × Loop) → Option ℕ → Option ℕ
  | [], acc => acc
  | (idx, child) :: rest, acc =>
    if 1 < child.repetitionCount then
      if child.repetitionParameter.isNone then some idx
      else Loop.selectSplitAux rest (if acc.isNone then some idx else acc)
    else Loop.selectSplitAux rest acc

/-- The mutation step shared by both paths of `Loop.split_one_child`: rewrite
a volatile chosen child's repetition expression to `old - 1` (with a warning),
insert a repetition-1 structural copy right after it, and decrement its
repetition count. -/
def Loop.doSplit (l : Loop) (i : ℕ) (child : Loop) : Loop × List QuWarning :=
  let (child1, warns) :=
    match child.repetitionParameter with
    | some p =>
      (child.withRepetitionParameter
        (some (MappedParameter.mk (PExpr.sub p.expression (PExpr.const 1)) p.ns)),
       [QuWarning.volatileModification])
    | none => (child, [])
  let newChild := ((child1.copyTreeStructure).setRepetitionCount 1).withRepetitionParameter none
  let child2 := child1.setRepetitionCount (child1.repetitionCount - 1)
  (l.setChildren (l.children.take i ++ [child2, newChild] ++ l.children.drop (i + 1)), warns)

/-- Mirrors `Loop.split_one_child`: with an explicit index the child must have
repetition count at least 2; without one, the scan over the reversed children
selects the last non-volatile child with repetition count above 1, falling
back to the last volatile one, and fails when there is no candidate. -/
def Loop.splitOneChild (l : Loop) (childIndex : Option ℕ) :
    Except String (Loop × List QuWarning) :=
  match childIndex with
  | some i =>
    match l.children.get? i with
    | none => .error "IndexError"
    | some child =>
      if child.repetitionCount < 2 then
        .error "Cannot split child as the repetition count is not larger 1"
      else .ok (l.doSplit i child)
  | none =>
    match Loop.selectSplitAux l.children.enum.reverse none with
    | none => .error "There is no child with repetition count larger 1"
    | some i =>
      match l.children.get? i with
      | none => .error "IndexError"
      | some child => .ok (l.doSplit i child)

/- ## Unroll -/

/-- Mirrors `Loop.unroll`, phrased on the parent (the source mutates
`self.parent`'s child list through the node's back-pointer): the child at
index `i` must not be a leaf; it is replaced by `repetition_count` structural
copies of its ordered children, with a volatile-modification warning when the
node is volatile. -/
def Loop.unrollChildAt (parent : Loop) (i : ℕ) : Except String (Loop × List QuWarning) :=
  match parent.children.get? i with
  | none => .error "IndexError"
  | some node =>
    if node.isLeaf then .error "Leaves cannot be unrolled"
    else
      let warns := if node.repetitionParameter.isSome then [QuWarning.volatileModification] else []
      let clones :=
        (List.replicate node.repetitionCount.toNat
          (node.children.map Loop.copyTreeStructure)).flatten
      .ok (parent.setChildren
            (parent.children.take i ++ clones ++ parent.children.drop (i + 1)), warns)

/- ## Rendering a subtree back to a waveform (`to_waveform`) -/

mutual

/-- Mirrors `to_waveform`: a leaf yields its waveform (wrapped in a
repetition waveform unless the count is 1), a single child is rendered
directly, several children become a sequence waveform; a repetition wrapper is
added when the repetition count exceeds 1.  `none` stands for the `None`
payload of an empty leaf (on which the Python callers fail). -/
def toWaveform : Loop → Option Waveform
  | .mk w _ r _ _ c =>
    match c with
    | [] => if r = 1 then w else w.map (fun wf => Waveform.rep wf r)
    | [single] =>
      match toWaveform single with
      | some sw => some (if 1 < r then Waveform.rep sw r else sw)
      | none => none
    | c0 :: c1 :: cs =>
      match toWaveformList (c0 :: c1 :: cs) with
      | some ws => some (if 1 < r then Waveform.rep (Waveform.seq ws) r else Waveform.seq ws)
      | none => none

def toWaveformList : List Loop → Option (List Waveform)
  | [] => some []
  | c :: cs =>
    match toWaveform c, toWaveformList cs with
    | some w, some ws => some (w :: ws)
    | _, _ => none

end

/- ## Compatibility analysis (`_is_compatible`) -/

/-- The `_CompatibilityLevel` enumeration. -/
inductive CompatibilityLevel where
  | compatible
  | actionRequired
  | incompatibleTooShort
  | incompatibleFraction
  | incompatibleQuantum
deriving DecidableEq

/-- Mirrors `_CompatibilityLevel.is_incompatible`. -/
def CompatibilityLevel.isIncompatible : CompatibilityLevel → Bool
  | .incompatibleFraction => true
  | .incompatibleQuantum => true
  | .incompatibleTooShort => true
  | _ => false

mutual

/-- Mirrors `_is_compatible`: the program duration in samples must be an
integer, at least `min_len` and a multiple of `quantum`; a leaf whose body in
samples is too short or off-quantum needs action, an inner node needs action
when any child is not compatible.  Action on a volatile node emits a
volatile-modification warning. -/
def isCompatible (minLen quantum : ℕ) (sampleRate : ℚ) : Loop → CompatibilityLevel × List QuWarning
  | .mk w m r p cache c =>
    let l := Loop.mk w m r p cache c
    let samples := l.duration * sampleRate
    if samples.den ≠ 1 then (.incompatibleFraction, [])
    else if samples < (minLen : ℚ) then (.incompatibleTooShort, [])
    else if samples.num % (quantum : ℤ) ≠ 0 then (.incompatibleQuantum, [])
    else if c.isEmpty then
      let wfSamples := l.bodyDuration * sampleRate
      if wfSamples < (minLen : ℚ) ∨ (wfSamples / (quantum : ℚ)).den ≠ 1 then
        (.actionRequired, if p.isSome then [QuWarning.volatileModification] else [])
      else (.compatible, [])
    else
      let (allCompat, ws) := childrenAllCompatible minLen quantum sampleRate c
      if allCompat then (.compatible, ws)
      else (.actionRequired, ws ++ (if p.isSome then [QuWarning.volatileModification] else []))

/-- The short-circuiting `all(...)` over the children in `_is_compatible`:
evaluation stops at the first non-compatible child, so only the warnings up to
that child are emitted. -/
def childrenAllCompatible (minLen quantum : ℕ) (sampleRate : ℚ) : List Loop → Bool × List QuWarning
  | [] => (true, [])
  | c :: cs =>
    let (lvl, w) := isCompatible minLen quantum sampleRate c
    if lvl = .compatible then
      let (b, ws) := childrenAllCompatible minLen quantum sampleRate cs
      (b, w ++ ws)
    else (false, w)

end

/- ## Compatibility rewriting (`_make_compatible` / `make_compatible`) -/

mutual

/-- Mirrors `_make_compatible`.  A leaf is re-rendered in place (repetition
folded into the waveform, volatility dropped).  An inner node with an
incompatible child is collapsed into a rendered leaf: when
`single_run = duration * sample_rate / repetition_count` is an integer
multiple of the quantum and at least `min_len`, the body is rendered once and
repetition count and volatility survive; otherwise the rendering bakes the
repetitions in and the node's count drops to 1 and loses volatility.
Otherwise the rewrite recurses into the children that need action. -/
def makeCompatibleInner (minLen quantum : ℕ) (sampleRate : ℚ) : Loop → Loop × List QuWarning
  | .mk w m r p cache c =>
    let l := Loop.mk w m r p cache c
    match c with
    | [] =>
      (((l.setWaveform (toWaveform l.copyTreeStructure)).setRepetitionCount 1).withRepetitionParameter
        none, [])
    | c0 :: cs =>
      let levelsWarns := (c0 :: cs).map (isCompatible minLen quantum sampleRate)
      let ws0 := (levelsWarns.map Prod.snd).flatten
      let levels := levelsWarns.map Prod.fst
      if levels.any CompatibilityLevel.isIncompatible then
        let singleRun := l.duration * sampleRate / l.repetitionCount
        if (singleRun / (quantum : ℚ)).den = 1 ∧ (minLen : ℚ) ≤ singleRun then
          let l1 := l.setRepetitionCount 1
          ((((l1.setWaveform (toWaveform l1.copyTreeStructure)).setRepetitionCount
              l.repetitionCount).withRepetitionParameter l.repetitionParameter).setChildren [],
           ws0)
        else
          ((((l.setWaveform (toWaveform l.copyTreeStructure)).setRepetitionCount
              1).withRepetitionParameter none).setChildren [],
           ws0)
      else
        let (c', ws1) := makeCompatibleChildren minLen quantum sampleRate (c0 :: cs) levels
        (Loop.mk w m r p cache c', ws0 ++ ws1)

/-- The recursion of `_make_compatible` into exactly the children whose level
is `action_required` (the in-place mutation of the children does not touch
this node's duration cache). -/
def makeCompatibleChildren (minLen quantum : ℕ) (sampleRate : ℚ) :
    List Loop → List CompatibilityLevel → List Loop × List QuWarning
  | [], _ => ([], [])
  | c :: cs, [] => (c :: cs, [])
  | c :: cs, lvl :: lvls =>
    let (c', w) :=
      if lvl = CompatibilityLevel.actionRequired then makeCompatibleInner minLen quantum sampleRate c
      else (c, [])
    let (cs', ws) := makeCompatibleChildren minLen quantum sampleRate cs lvls
    (c' :: cs', w ++ ws)

end

/-- The fatal errors of the free function `make_compatible`, each carrying the
computed values shown in the corresponding message. -/
inductive CompatibilityError where
  | fraction (samples : ℚ)
  | tooShort (samples : ℚ) (minLen : ℕ)
  | quantum (samples : ℚ) (quantum : ℕ)
deriving DecidableEq

/-- Mirrors the free function `make_compatible`: classify the root, fail on
the three incompatible levels with the computed values, do nothing when
compatible, and emit the make-compatible warning followed by running
`_make_compatible` when action is required. -/
def makeCompatible (l : Loop) (minimalWaveformLength waveformQuantum : ℕ) (sampleRate : ℚ) :
    Except CompatibilityError (Loop × List QuWarning) :=
  let (lvl, ws) := isCompatible minimalWaveformLength waveformQuantum sampleRate l
  match lvl with
  | .incompatibleFraction => .error (.fraction (l.duration * sampleRate))
  | .incompatibleTooShort => .error (.tooShort (l.duration * sampleRate) minimalWaveformLength)
  | .incompatibleQuantum => .error (.quantum (l.duration * sampleRate) waveformQuantum)
  | .actionRequired =>
    let (l', ws') := makeCompatibleInner minimalWaveformLength waveformQuantum sampleRate l
    .ok (l', ws ++ [QuWarning.makeCompatibleAction] ++ ws')
  | .compatible => .ok (l, ws)

/- ## Instruction-block lowering (`MultiChannelProgram`) -/

/-- The instruction variants consumed by `__split_channels`.  Jump targets are
`(block, offset)` pairs; blocks are instruction lists. -/
inductive Instruction where
  | exec (wf : Waveform)
  | repj (count : ℤ) (targetBlock : List Instruction) (targetOffset : ℕ)
  | goto (targetBlock : List Instruction) (targetOffset : ℕ)
  | chan (mapping : List (Finset ℕ × List Instruction × ℕ))
  | meas (ms : List MeasurementWindow)
  | stop

/-- One frame of the lowering block stack: the location (child-index path) of
the loop under construction and the remaining instruction deque. -/
abbrev Frame := List ℕ × List Instruction

/-- Mirrors `Node.locate`: follow a child-index path. -/
def Loop.locate : Loop → List ℕ → Option Loop
  | l, [] => some l
  | l, i :: rest =>
    match l.children.get? i with
    | some c => c.locate rest
    | none => none

/-- How a mutation at a node affects the duration caches on the path to the
root (`Loop._invalidate_duration`): untouched, incremented by a known delta,
or fully invalidated. -/
inductive CacheInv where
  | keep
  | incr (d : ℚ)
  | full

/-- Apply one step of `_invalidate_duration` to a node's own cache. -/
def applyCacheInv (cache : Option ℚ) : CacheInv → Option ℚ
  | .keep => cache
  | .incr d => cache.map (· + d)
  | .full => none

/-- Rebuild the tree after mutating the node at the given path, updating the
caches along the path exactly as `_invalidate_duration` does: an incremental
delta is added to each present cache and is scaled by the node's repetition
count on the way up. -/
def Loop.modifyAtInv : Loop → List ℕ → (Loop → Loop × CacheInv) → Option (Loop × CacheInv)
  | l, [], f => some (f l)
  | .mk w m r p cache c, i :: rest, f =>
    match c.get? i with
    | none => none
    | some child =>
      match child.modifyAtInv rest f with
      | none => none
      | some (child', inv) =>
        let invUp : CacheInv :=
          match inv with
          | .keep => .keep
          | .incr d => .incr (d * r)
          | .full => .full
        some (.mk w m r p (applyCacheInv cache inv) (c.set i child'), invUp)

/-- Mirrors `Loop.append_child`: push the child and update this node's cache
incrementally by the child's duration; ancestors receive the delta scaled by
this node's repetition count. -/
def Loop.appendChildF (l : Loop) (child : Loop) : Loop × CacheInv :=
  match l with
  | .mk w m r p cache c =>
    let d := child.duration
    (.mk w m r p (cache.map (· + d)) (c ++ [child]), .incr (d * r))

/-- The failure modes of `__split_channels`.  `channelSplit` carries, besides
the key sets of the splitting CHAN, the partial root loop and the block stack
as mutated up to the raise (the driver sees them through aliasing). -/
inductive LowerError where
  | channelSplit (channelSets : List (Finset ℕ)) (root : Loop) (stack : List Frame)
  | channelMismatch (wfChannels : Finset ℕ) (channels : Finset ℕ)
  | unhandled
  | locateFail
  | outOfFuel

mutual

/-- The outer `while block_stack` loop of `__split_channels`: pop the frame
pushed last and process its instructions.  `fuel` bounds the number of steps;
every claim about the routine is conditioned on its actual result. -/
def processFrames : ℕ → Finset ℕ → Loop → List Frame → Except LowerError Loop
  | _, _, root, [] => .ok root
  | 0, _, _, _ :: _ => .error .outOfFuel
  | fuel + 1, channels, root, f0 :: fs =>
    match (f0 :: fs).getLast? with
    | none => .error .outOfFuel
    | some (loc, instrs) => processInstrs fuel channels root ((f0 :: fs).dropLast) loc instrs

/-- The inner instruction loop of `__split_channels`.  EXEC appends a
waveform leaf (channel check first); REPJ pushes the remaining tail and a new
frame for the target slice `[offset:-1]` inside a fresh child; CHAN either
splices the matching slice onto the deque front (`deque.extendleft`, which
reverses) or pushes the frame back with the CHAN restored and raises
`ChannelSplit`; MEAS appends measurements; everything else is unhandled. -/
def processInstrs : ℕ → Finset ℕ → Loop → List Frame → List ℕ → List Instruction →
    Except LowerError Loop
  | 0, _, _, _, _, _ => .error .outOfFuel
  | fuel + 1, channels, root, stack, _, [] => processFrames fuel channels root stack
  | fuel + 1, channels, root, stack, loc, instr :: rest =>
    match instr with
    | .exec wf =>
      if channels ⊆ wf.definedChannels then
        match root.modifyAtInv loc
            (fun n => n.appendChildF (Loop.mk (some wf) none 1 none none [])) with
        | some (root', _) => processInstrs fuel channels root' stack loc rest
        | none => .error .locateFail
      else .error (.channelMismatch wf.definedChannels channels)
    | .repj count tblock toffset =>
      match root.locate loc with
      | none => .error .locateFail
      | some cur =>
        let stack1 := if rest.isEmpty then stack else stack ++ [(loc, rest)]
        match root.modifyAtInv loc
            (fun n => n.appendChildF (Loop.mk none none count none none [])) with
        | none => .error .locateFail
        | some (root', _) =>
          processFrames fuel channels root'
            (stack1 ++ [(loc ++ [cur.children.length], (tblock.drop toffset).dropLast)])
    | .goto _ _ => .error .unhandled
    | .chan mapping =>
      match mapping.find? (fun e => decide (e.1 = channels)) with
      | some e =>
        processInstrs fuel channels root stack loc (((e.2.1.drop e.2.2).dropLast).reverse ++ rest)
      | none =>
        .error (.channelSplit (mapping.map (fun e => e.1)) root
          (stack ++ [(loc, Instruction.chan mapping :: rest)]))
    | .meas ms =>
      match root.modifyAtInv loc (fun n => (n.addMeasurements ms, CacheInv.keep)) with
      | some (root', _) => processInstrs fuel channels root' stack loc rest
      | none => .error .locateFail
    | .stop => .error .unhandled

end

/-- The outer work map `stacks` of `_init_from_instruction_block`, as an
insertion-ordered association list (`dict.popitem` pops the last entry). -/
abbrev StackMap := List (Finset ℕ × Loop × List Frame)

def stackMapHasKey (s : StackMap) (k : Finset ℕ) : Bool :=
  s.any (fun e => decide (e.1 = k))

/-- The `except ChannelSplit` body of the driver: for every key set of the
splitting CHAN, assert that it is new to the work map and contained in the
current channel set, then push it with a fresh structural copy of the partial
root loop and the (deep-copied) block stack at the split position. -/
def pushSplitEntries (chans : Finset ℕ) (rootAfter : Loop) (stackAfter : List Frame) :
    StackMap → List (Finset ℕ) → Option StackMap
  | acc, [] => some acc
  | acc, s :: rest =>
    if stackMapHasKey acc s then none
    else if s ⊆ chans then
      pushSplitEntries chans rootAfter stackAfter
        (acc ++ [(s, rootAfter.copyTreeStructure, stackAfter)]) rest
    else none

inductive DriverError where
  | assertionFailed
  | lowering (e : LowerError)
  | emptyStacks

/-- One iteration of the `while len(stacks) > 0` driver loop of
`_init_from_instruction_block`: pop the entry inserted last, lower it; on
success record the finished program under its channel set, on `ChannelSplit`
drop it and push the new channel sets. -/
def driverStep (fuel : ℕ) (programs : List (Finset ℕ × Loop)) (workMap : StackMap) :
    Except DriverError (List (Finset ℕ × Loop) × StackMap) :=
  match workMap.getLast? with
  | none => .error .emptyStacks
  | some (chans, root, stack) =>
    let rest := workMap.dropLast
    match processFrames fuel chans root stack with
    | .ok loop => .ok (programs ++ [(chans, loop)], rest)
    | .error (.channelSplit sets root' stack') =>
      match pushSplitEntries chans root' stack' rest sets with
      | some newStacks => .ok (programs, newStacks)
      | none => .error .assertionFailed
    | .error e => .error (.lowering e)

/- ## Specification-level helpers and concrete instances -/

/-- The index of the last element satisfying the predicate
(specification-level description of the reverse candidate scan of
`split_one_child`). -/
def idxOfLast (p : Loop → Bool) : List Loop → Option ℕ
  | [] => none
  | c :: cs =>
    match idxOfLast p cs with
    | some j => some (j + 1)
    | none => if p c then some 0 else none

def wfA : Waveform := .atom 1 1 ∅

def wfB : Waveform := .atom 2 2 ∅

def wfW : Waveform := .atom 3 10 ∅

def wf3 : Waveform := .atom 4 3 ∅

def wf5 : Waveform := .atom 5 5 ∅

def wfThird : Waveform := .atom 6 (1/3) ∅

def leafA : Loop := .mk (some wfA) none 1 none none []

def leafB : Loop := .mk (some wfB) none 1 none none []

/-- Scenario E3: `Loop(rep=3, children=[A, B])` inside a grandparent. -/
def loopE3node : Loop := .mk none none 3 none none [leafA, leafB]

def loopE3parent : Loop := .mk none none 1 none none [loopE3node]

/-- Scenario E4: `Loop(rep=2, children=[Loop(rep=3, waveform=W)])`. -/
def loopE4child : Loop := .mk (some wfW) none 3 none none []

def loopE4 : Loop := .mk none none 2 none none [loopE4child]

def loopE4merged : Loop := .mk (some wfW) none 6 none none []

/-- Scenario E5: `Loop(rep=2, children=[Leaf(dur=3), Leaf(dur=5)])`. -/
def leaf3 : Loop := .mk (some wf3) none 1 none none []

def leaf5 : Loop := .mk (some wf5) none 1 none none []

def loopE5 : Loop := .mk none none 2 none none [leaf3, leaf5]

def loopE5result : Loop := .mk (some (.seq [wf3, wf5])) none 2 none none []

/-- A leaf whose waveform duration 1/3 is not representable in binary64. -/
def leafThird : Loop := .mk (some wfThird) none 1 none none []

/-- A tree with consistently filled duration caches. -/
def loopC8 : Loop := .mk none none 2 none (some 5) [.mk (some wf5) none 1 none (some 5) []]

/-- A parameter with constant value 3. -/
def paramThree : MappedParameter := .mk (.const 3) []

/-- A parameter referring to a named constant. -/
def paramN : MappedParameter := .mk (.var "n") [("n", paramThree)]

/-- A volatile child with repetition count 3. -/
def c6vol : Loop := .mk (some wfA) none 3 (some paramN) none []

/-- A non-volatile child with repetition count 2. -/
def c6nonvol : Loop := .mk (some wfB) none 2 none none []

/-- Children with both volatile and non-volatile split candidates. -/
def loopC6 : Loop := .mk none none 1 none none [leafA, c6vol, c6nonvol, leafB]

/-- Children whose only split candidate is volatile. -/
def loopC6v : Loop := .mk none none 1 none none [leafA, c6vol]

/-- An empty leaf that carries measurements. -/
def emptyLeafMeas : Loop := .mk none (some [⟨"m", 0, 1⟩]) 1 none none []

/-- A leaf with fractional duration in samples. -/
def leafFrac : Loop := .mk (some (.atom 7 (5/2) ∅)) none 1 none none []

/-- Scenario E6 (channel split): one CHAN instruction over two sub-channel
sets. -/
def chansW : Finset ℕ := {1, 2, 3}

def rootW : Loop := .mk none none 1 none none []

def blockW : List Instruction := [.chan [({1, 2}, [], 0), ({3}, [], 0)]]

def stackW : List Frame := [([], blockW)]

def setsW : List (Finset ℕ) := [{1, 2}, {3}]

/-- A mergeable single child carrying measurements under a measured parent. -/
def loopC5child : Loop := .mk (some wfA) (some [⟨"q", 0, 1⟩]) 1 none none []

def loopC5m : Loop := .mk none (some [⟨"p", 1, 2⟩]) 2 none none [loopC5child]

/- # Theorems -/

/- ## Duration and cache lemmas -/

mutual

theorem Loop.bodyDuration_eq_fresh : (l : Loop) → l.wellCached = true →
    l.bodyDuration = l.freshBodyDuration
  | .mk w m r p cache c, h => by
    simp only [Loop.wellCached, Bool.and_eq_true] at h
    obtain ⟨h1, h2⟩ := h
    cases cache with
    | none =>
      cases c with
      | nil => rfl
      | cons c0 cs =>
        rw [Loop.bodyDuration, Loop.freshBodyDuration]
        exact Loop.durationSum_eq_fresh (c0 :: cs) h2
    | some d =>
      rw [beq_iff_eq] at h1
      rw [Loop.bodyDuration]
      rw [h1]
      cases c with
      | nil => rfl
      | cons c0 cs => rfl

theorem Loop.durationSum_eq_fresh : (ls : List Loop) → Loop.wellCachedList ls = true →
    Loop.durationSum ls = Loop.freshDurationSum ls
  | [], _ => rfl
  | l :: ls, h => by
    simp only [Loop.wellCachedList, Bool.and_eq_true] at h
    rw [Loop.durationSum, Loop.freshDurationSum,
      Loop.bodyDuration_eq_fresh l h.1, Loop.durationSum_eq_fresh ls h.2]

end

theorem Loop.durationSum_eq_map_sum (ls : List Loop) :
    Loop.durationSum ls = (ls.map Loop.duration).sum := by
  induction ls with
  | nil => rfl
  | cons l ls ih =>
    rw [Loop.durationSum, List.map_cons, List.sum_cons, ih, Loop.duration]

/- ## Integer-valued rationals and `int()` -/

theorem pyInt_intCast (n : ℤ) : pyInt (n : ℚ) = n := by
  unfold pyInt
  rcases le_or_lt 0 (n : ℚ) with h | h
  · rw [if_pos h, Int.floor_intCast]
  · rw [if_neg (not_le.mpr h), Int.ceil_intCast]

theorem rat_den_one_iff (s : ℚ) : s.den = 1 ↔ ∃ k : ℤ, s = k := by
  constructor
  · intro h
    exact ⟨s.num, by rw [← Rat.num_div_den s, h]; simp⟩
  · rintro ⟨k, rfl⟩
    exact Rat.den_intCast k

theorem pyInt_cast_eq_iff (q : ℚ) : (pyInt q : ℚ) = q ↔ q.den = 1 := by
  constructor
  · intro h
    rw [← h]
    exact Rat.den_intCast (pyInt q)
  · intro h
    obtain ⟨k, rfl⟩ := (rat_den_one_iff q).mp h
    rw [pyInt_intCast]

/- ## Dyadic rationals cannot equal one third -/

theorem dyadic_ne_third (m e : ℤ) : (m : ℚ) * (2 : ℚ) ^ e ≠ 1 / 3 := by
  intro h
  rcases le_or_lt 0 e with he | he
  · have h1 : ((3 * m * 2 ^ e.toNat : ℤ) : ℚ) = 1 := by
      push_cast
      rw [show ((2 : ℚ) ^ e.toNat = (2 : ℚ) ^ e) from by
        rw [← zpow_natCast]
        congr 1
        omega]
      field_simp at h ⊢
      linarith
    have h2 : (3 * m * 2 ^ e.toNat : ℤ) = 1 := by exact_mod_cast h1
    have h3 : (3 : ℤ) ∣ 1 := ⟨m * 2 ^ e.toNat, by linarith⟩
    norm_num at h3
  · have he' : e = -(((-e).toNat : ℤ)) := by omega
    have h1 : ((3 * m : ℤ) : ℚ) = ((2 ^ (-e).toNat : ℤ) : ℚ) := by
      push_cast
      rw [he'] at h
      rw [zpow_neg, zpow_natCast] at h
      have h2 : (2 : ℚ) ^ (-e).toNat ≠ 0 := by positivity
      field_simp at h
      linarith
    have h2 : (3 * m : ℤ) = 2 ^ (-e).toNat := by exact_mod_cast h1
    have h3 : (3 : ℤ) ∣ 2 ^ (-e).toNat := ⟨m, by linarith⟩
    have h4 : (3 : ℤ) ∣ 2 := Int.Prime.dvd_pow' (by norm_num) h3
    norm_num at h4

theorem floatOfRat_third_ne : floatOfRat (1 / 3) ≠ 1 / 3 := by
  unfold floatOfRat
  simp only [if_neg (show ¬((1 : ℚ) / 3 = 0) by norm_num),
    if_neg (show ¬((1 : ℚ) / 3 < 0) by norm_num), one_mul]
  exact dyadic_ne_third _ _

/-- C10: `cleanup` (with any actions) never removes the node it is called on,
only descendants: on a Loop that is itself an empty leaf (no waveform, no
children) it returns the node unchanged, with its measurements intact, and
emits no dropped-measurement diagnostic. -/
theorem claim_C10_cleanup_keeps_node (act : CleanupActions) (l : Loop)
    (hleaf : l.children = []) (hwf : l.waveform = none) :
    l.cleanup act = (l, []) ∧
    (l.cleanup act).1.measurements = l.measurements ∧
    QuWarning.droppedMeasurement ∉ (l.cleanup act).2 := by
  cases l with
  | mk w m r p cache c =>
    rw [Loop.children] at hleaf
    subst hleaf
    have hclean : Loop.cleanup act (Loop.mk w m r p cache []) = (Loop.mk w m r p cache [], []) := by
      rw [Loop.cleanup]
      by_cases h : act.removeEmptyLoops
      · simp [h, Loop.cleanupChildren, Loop.hasSingleChildThatCanBeMerged, Loop.children]
      · simp [h, Loop.cleanupEach, Loop.hasSingleChildThatCanBeMerged, Loop.children]
    refine ⟨hclean, ?_, ?_⟩
    · rw [hclean]
    · rw [hclean]
      simp

/-- C10 witness: cleanup of an empty leaf carrying a measurement leaves the
node and its measurement untouched and warns about nothing. -/
theorem claim_C10_witness :
    emptyLeafMeas.children = [] ∧ emptyLeafMeas.waveform = none ∧
    emptyLeafMeas.cleanup ⟨true, true⟩ = (emptyLeafMeas, []) ∧
    (emptyLeafMeas.cleanup ⟨true, true⟩).1.measurements = some [⟨"m", 0, 1⟩] := by
  have h := claim_C10_cleanup_keeps_node ⟨true, true⟩ emptyLeafMeas rfl rfl
  exact ⟨rfl, rfl, h.1, by rw [h.2.1]; rfl⟩

/-- C8: for every Loop whose duration caches are consistent, `body_duration`
is the waveform duration on a waveform-leaf, 0 on an empty leaf, and the sum
of the children's durations on an inner node, and
`duration = body_duration * repetition_count`. -/
theorem claim_C8_duration_invariant (l : Loop) (h : l.wellCached = true) :
    l.duration = l.bodyDuration * l.repetitionCount ∧
    (l.children = [] → ∀ wf, l.waveform = some wf → l.bodyDuration = wf.duration) ∧
    (l.children = [] → l.waveform = none → l.bodyDuration = 0) ∧
    (l.children ≠ [] → l.bodyDuration = (l.children.map Loop.duration).sum) := by
  cases l with
  | mk w m r p cache c =>
    have hfresh := Loop.bodyDuration_eq_fresh (Loop.mk w m r p cache c) h
    have hlist : Loop.wellCachedList c = true := by
      simp only [Loop.wellCached, Bool.and_eq_true] at h
      exact h.2
    refine ⟨rfl, ?_, ?_, ?_⟩
    · intro hc wf hwf
      rw [Loop.children] at hc
      rw [Loop.waveform] at hwf
      subst hc
      subst hwf
      rw [hfresh]
      rfl
    · intro hc hwf
      rw [Loop.children] at hc
      rw [Loop.waveform] at hwf
      subst hc
      subst hwf
      rw [hfresh]
      rfl
    · intro hc
      rw [Loop.children] at hc ⊢
      rw [hfresh]
      cases c with
      | nil => exact absurd rfl hc
      | cons c0 cs =>
        rw [Loop.freshBodyDuration, ← Loop.durationSum_eq_fresh (c0 :: cs) hlist,
          Loop.durationSum_eq_map_sum]

/-- C8 witness: a cached inner node over a cached waveform leaf. -/
theorem claim_C8_witness :
    loopC8.wellCached = true ∧
    (loopC8.duration = loopC8.bodyDuration * loopC8.repetitionCount ∧
     (loopC8.children = [] → ∀ wf, loopC8.waveform = some wf → loopC8.bodyDuration = wf.duration) ∧
     (loopC8.children = [] → loopC8.waveform = none → loopC8.bodyDuration = 0) ∧
     (loopC8.children ≠ [] → loopC8.bodyDuration = (loopC8.children.map Loop.duration).sum)) := by
  have hwc : loopC8.wellCached = true := by
    norm_num [loopC8, Loop.wellCached, Loop.wellCachedList, Loop.freshBodyDuration,
      Loop.freshDurationSum, Loop.repetitionCount, Waveform.duration, wf5]
  exact ⟨hwc, claim_C8_duration_invariant loopC8 hwc⟩

/-- C2 counterexample: a Loop constructed with repetition count 5 and a
repetition parameter of value 3 stores repetition count 5, so the constructor
does not set `repetition_count = int(parameter.get_value())`. -/
theorem claim_C2_counterexample :
    (Loop.new none none 5 (some paramThree) []).toOption.map Loop.repetitionCount = some 5 ∧
    paramThree.getValue = 3 ∧ (5 : ℤ) ≠ 3 := by
  refine ⟨?_, ?_, by norm_num⟩
  · have h5 : pyInt (5 : ℚ) = 5 := by exact_mod_cast pyInt_intCast 5
    simp only [Loop.new, h5]
    norm_num [Except.toOption, Loop.repetitionCount]
  · simp [paramThree, MappedParameter.getValue, PExpr.evalIn]

/-- C2 (amended): the constructor rejects any non-integer repetition count and
stores the parameter, but sets `repetition_count = int(repetition_count)` from
the argument, independently of the parameter's value. -/
theorem claim_C2_constructor (w : Option Waveform) (m : Option (List MeasurementWindow))
    (rc : ℚ) (p : Option MappedParameter) (c : List Loop) :
    (rc.den = 1 → Loop.new w m rc p c = .ok (Loop.mk w m rc.num p none c)) ∧
    (rc.den ≠ 1 → Loop.new w m rc p c = .error "Repetition count was not an integer") := by
  constructor
  · intro h
    obtain ⟨k, rfl⟩ := (rat_den_one_iff rc).mp h
    simp [Loop.new, pyInt_intCast]
  · intro h
    simp only [Loop.new]
    rw [if_neg]
    intro hc
    exact h ((pyInt_cast_eq_iff rc).mp hc)

/-- C2 witness: integer count 4 is accepted (with the parameter stored and
the argument's value as count), non-integer count 7/2 is rejected. -/
theorem claim_C2_witness :
    ((4 : ℚ).den = 1 ∧ Loop.new none none 4 (some paramThree) [] =
      .ok (Loop.mk none none (4 : ℚ).num (some paramThree) none [])) ∧
    (((7 : ℚ) / 2).den ≠ 1 ∧ Loop.new none none ((7 : ℚ) / 2) none [] =
      .error "Repetition count was not an integer") :=
  ⟨⟨by norm_num, (claim_C2_constructor none none 4 (some paramThree) []).1 (by norm_num)⟩,
   ⟨by norm_num, (claim_C2_constructor none none ((7 : ℚ) / 2) none []).2 (by norm_num)⟩⟩

/-- C9 counterexample: `add_measurements` on a node with body duration 1/3
does not store the exact sum `begin + body_duration`: the offset is flattened
to a double-precision float first, and 1/3 is not representable. -/
theorem claim_C9_counterexample :
    (leafThird.addMeasurements [⟨"m", 0, 1⟩]).measurements ≠ some [⟨"m", 1 / 3, 1⟩] := by
  have hbd : (Loop.mk (some wfThird) none 1 none none []).bodyDuration = 1 / 3 := by
    simp [Loop.bodyDuration, wfThird, Waveform.duration]
  simp only [Loop.addMeasurements, leafThird, hbd, Loop.measurements, Loop.withMeasurements,
    List.map_cons, List.map_nil]
  by_cases h0 : floatOfRat (1 / 3) = 0
  · rw [if_pos h0]
    simp only [ne_eq, Option.some.injEq, List.cons.injEq, MeasurementWindow.mk.injEq]
    intro hcon
    have h1 : (0 : ℚ) = 1 / 3 := hcon.1.2.1
    norm_num at h1
  · rw [if_neg h0]
    simp only [ne_eq, Option.some.injEq, List.cons.injEq, MeasurementWindow.mk.injEq]
    intro hcon
    have h1 : (0 : ℚ) + floatOfRat (1 / 3) = 1 / 3 := hcon.1.2.1
    rw [zero_add] at h1
    exact floatOfRat_third_ne h1

/-- C9 (amended): `add_measurements` appends the given windows with each begin
offset by `float(body_duration)` — the double-precision flattening of the
node's exact body duration — and with no offset at all when that float is
zero; the stored begins are therefore not, in general, the exact sum of the
given begin and the body duration. -/
theorem claim_C9_add_measurements (l : Loop) (ms : List MeasurementWindow) :
    (l.addMeasurements ms).measurements =
      some (l.measurements.getD [] ++
        (if floatOfRat l.bodyDuration = 0 then ms
         else ms.map (fun mw => MeasurementWindow.mk mw.name (mw.begin + floatOfRat l.bodyDuration) mw.len))) := by
  cases l with
  | mk w m r p cache c =>
    unfold Loop.addMeasurements
    cases m with
    | none => simp [Loop.measurements, Loop.withMeasurements]
    | some old => simp [Loop.measurements, Loop.withMeasurements]

/-- C5: a single child can be merged iff this node has exactly one child and
either no measurements or a repetition-1 non-volatile child; the merge
multiplies the repetition counts, concatenates child then parent
measurements, lifts the child's waveform and children, and E4 holds. -/
theorem claim_C5_single_child_merge (l : Loop) :
    (l.hasSingleChildThatCanBeMerged = true ↔
      ∃ child, l.children = [child] ∧
        (l.measNonempty = false ∨
         (child.repetitionCount = 1 ∧ child.repetitionParameter = none))) ∧
    (∀ child, l.children = [child] → l.hasSingleChildThatCanBeMerged = true →
      l.waveform = none →
      l.mergeSingleChild.repetitionCount = l.repetitionCount * child.repetitionCount ∧
      l.mergeSingleChild.measurements.getD [] =
        child.measurements.getD [] ++ l.measurements.getD [] ∧
      l.mergeSingleChild.waveform = child.waveform ∧
      l.mergeSingleChild.children = child.children) ∧
    loopE4.cleanup ⟨true, true⟩ = (loopE4merged, []) := by
  refine ⟨?_, ?_, ?_⟩
  · cases l with
    | mk w m r p cache c =>
      match c with
      | [] =>
        simp [Loop.hasSingleChildThatCanBeMerged, Loop.children]
      | [child] =>
        simp only [Loop.hasSingleChildThatCanBeMerged, Loop.children, Bool.or_eq_true,
          Bool.not_eq_true', Bool.and_eq_true, beq_iff_eq, Option.isNone_iff_eq_none]
        constructor
        · intro hcase
          exact ⟨child, rfl, hcase⟩
        · rintro ⟨child', hc, hcase⟩
          obtain rfl : child = child' := by
            simpa using hc
          exact hcase
      | c0 :: c1 :: cs =>
        simp [Loop.hasSingleChildThatCanBeMerged, Loop.children]
  · intro child hc hmerge hwf
    cases l with
    | mk w m r p cache c =>
      rw [Loop.children] at hc
      subst hc
      rw [Loop.waveform] at hwf
      subst hwf
      cases child with
      | mk cw cm cr cp ccache cc =>
        unfold Loop.mergeSingleChild
        cases m with
        | none =>
          cases cm with
          | none =>
            simp [Loop.children, Loop.measNonempty, Loop.measurements, Loop.repetitionCount,
              Loop.repetitionParameter, Loop.waveform]
          | some cmv =>
            simp [Loop.children, Loop.measNonempty, Loop.measurements, Loop.repetitionCount,
              Loop.repetitionParameter, Loop.waveform]
        | some sm =>
          cases sm with
          | nil =>
            cases cm with
            | none =>
              simp [Loop.children, Loop.measNonempty, Loop.measurements, Loop.repetitionCount,
                Loop.repetitionParameter, Loop.waveform]
            | some cmv =>
              simp [Loop.children, Loop.measNonempty, Loop.measurements, Loop.repetitionCount,
                Loop.repetitionParameter, Loop.waveform]
          | cons m0 ms =>
            cases cm with
            | none =>
              simp [Loop.children, Loop.measNonempty, Loop.measurements, Loop.repetitionCount,
                Loop.repetitionParameter, Loop.waveform]
            | some cmv =>
              cases cmv with
              | nil =>
                simp [Loop.children, Loop.measNonempty, Loop.measurements, Loop.repetitionCount,
                  Loop.repetitionParameter, Loop.waveform]
              | cons cm0 cms =>
                simp [Loop.children, Loop.measNonempty, Loop.measurements, Loop.repetitionCount,
                  Loop.repetitionParameter, Loop.waveform]
  · simp [loopE4, loopE4child, loopE4merged, Loop.cleanup, Loop.cleanupChildren,
      Loop.hasSingleChildThatCanBeMerged, Loop.mergeSingleChild, Loop.children, Loop.isLeaf,
      Loop.waveform, Loop.measurements, Loop.measNonempty, Loop.repetitionCount,
      Loop.repetitionParameter]

/-- C5 witness: the merge applied to a measured parent over a measured
repetition-1 non-volatile child. -/
theorem claim_C5_witness :
    loopC5m.children = [loopC5child] ∧
    loopC5m.hasSingleChildThatCanBeMerged = true ∧
    loopC5m.waveform = none ∧
    loopC5m.mergeSingleChild.repetitionCount = 2 * 1 ∧
    loopC5m.mergeSingleChild.measurements.getD [] = [⟨"q", 0, 1⟩, ⟨"p", 1, 2⟩] := by
  have hpred : loopC5m.hasSingleChildThatCanBeMerged = true := by
    simp [loopC5m, loopC5child, Loop.hasSingleChildThatCanBeMerged, Loop.children,
      Loop.measNonempty, Loop.measurements, Loop.repetitionCount, Loop.repetitionParameter]
  have h := (claim_C5_single_child_merge loopC5m).2.1 loopC5child rfl hpred rfl
  refine ⟨rfl, hpred, rfl, ?_, ?_⟩
  · rw [h.1]
    rfl
  · rw [h.2.1]
    rfl

/-- C7: `unroll` fails on a leaf; on a non-leaf child it replaces the child in
the parent's list by `repetition_count` structural copies of its ordered
children (warning when volatile), and E3 yields A,B,A,B,A,B. -/
theorem claim_C7_unroll (parent : Loop) (i : ℕ) (node : Loop)
    (h : parent.children.get? i = some node) :
    (node.children = [] → parent.unrollChildAt i = .error "Leaves cannot be unrolled") ∧
    (node.children ≠ [] →
      parent.unrollChildAt i =
        .ok (parent.setChildren
              (parent.children.take i ++
               (List.replicate node.repetitionCount.toNat
                 (node.children.map Loop.copyTreeStructure)).flatten ++
               parent.children.drop (i + 1)),
             if node.repetitionParameter.isSome then [QuWarning.volatileModification] else [])) ∧
    loopE3parent.unrollChildAt 0 =
      .ok (Loop.mk none none 1 none none [leafA, leafB, leafA, leafB, leafA, leafB], []) := by
  refine ⟨?_, ?_, ?_⟩
  · intro hleaf
    unfold Loop.unrollChildAt
    rw [h]
    simp [Loop.isLeaf, hleaf]
  · intro hne
    unfold Loop.unrollChildAt
    rw [h]
    simp [Loop.isLeaf, List.isEmpty_iff, hne]
  · simp only [loopE3parent, loopE3node, Loop.unrollChildAt, Loop.children, List.get?]
    norm_num [Loop.isLeaf, Loop.children, Loop.repetitionParameter, Loop.repetitionCount,
      Loop.setChildren, Loop.copyTreeStructure, Loop.copyTreeStructureList, leafA, leafB,
      List.replicate, List.flatten]

/-- C7 witness: unrolling a volatile non-leaf child emits the
volatile-modification warning and splices the copies in place. -/
theorem claim_C7_witness :
    loopC6.children.get? 1 = some c6vol ∧ c6vol.children = [] ∧
    loopC6.unrollChildAt 1 = .error "Leaves cannot be unrolled" := by
  have h := claim_C7_unroll loopC6 1 c6vol rfl
  exact ⟨rfl, rfl, h.1 rfl⟩

/- ## The candidate scan of `split_one_child` -/

theorem selectSplitAux_spec (rcs : List (ℕ × Loop)) :
    ∀ acc, Loop.selectSplitAux rcs acc =
      match rcs.find? (fun e => decide (1 < e.2.repetitionCount) && e.2.repetitionParameter.isNone) with
      | some e => some e.1
      | none =>
        match acc with
        | some a => some a
        | none => (rcs.find? (fun e => decide (1 < e.2.repetitionCount))).map Prod.fst := by
  induction rcs with
  | nil =>
    intro acc
    cases acc <;> rfl
  | cons hd rcs ih =>
    intro acc
    obtain ⟨idx, child⟩ := hd
    rw [Loop.selectSplitAux]
    by_cases h1 : 1 < child.repetitionCount
    · by_cases h2 : child.repetitionParameter.isNone
      · rw [if_pos h1, if_pos h2]
        simp [List.find?, h1, h2]
      · rw [if_pos h1, if_neg h2, ih]
        have e2 : decide (1 < child.repetitionCount) = true := by simp [h1]
        have e3 : child.repetitionParameter.isNone = false := by
          simp only [Bool.not_eq_true] at h2
          exact h2
        simp only [List.find?, e2, e3, Bool.true_and, Bool.and_false, Option.map_some']
        cases acc <;> simp
    · rw [if_neg h1, ih]
      have e2 : decide (1 < child.repetitionCount) = false := by simp [h1]
      simp only [List.find?, e2, Bool.false_and]

theorem enumFrom_reverse_find? (pb : Loop → Bool) (cs : List Loop) :
    ∀ n : ℕ,
      ((List.enumFrom n cs).reverse.find? (fun e => pb e.2)).map Prod.fst =
        (idxOfLast pb cs).map (· + n) := by
  induction cs with
  | nil => intro n; rfl
  | cons c cs ih =>
    intro n
    rw [List.enumFrom_cons, List.reverse_cons, List.find?_append]
    have hrest := ih (n + 1)
    rcases h : idxOfLast pb cs with _ | j
    · rw [h] at hrest
      simp only [Option.map_none'] at hrest
      have hfind : (List.enumFrom (n + 1) cs).reverse.find? (fun e => pb e.2) = none := by
        rcases hf : (List.enumFrom (n + 1) cs).reverse.find? (fun e => pb e.2) with _ | e
        · exact hf
        · rw [hf] at hrest
          simp at hrest
      rw [hfind, Option.none_or]
      rw [idxOfLast, h]
      by_cases hp : pb c
      · simp [List.find?, hp]
      · simp [List.find?, hp]
    · rw [h] at hrest
      rcases hf : (List.enumFrom (n + 1) cs).reverse.find? (fun e => pb e.2) with _ | e
      · rw [hf] at hrest
        simp at hrest
      · rw [hf] at hrest
        simp only [Option.map_some', Option.some.injEq] at hrest
        rw [hf]
        rw [show (some e).or ([(n, c)].find? (fun e => pb e.2)) = some e from rfl]
        rw [idxOfLast, h]
        simp only [Option.map_some', Option.some.injEq]
        omega

theorem selectSplit_eq_idxOfLast (cs : List Loop) :
    Loop.selectSplitAux cs.enum.reverse none =
      match idxOfLast (fun c => decide (1 < c.repetitionCount) && c.repetitionParameter.isNone) cs with
      | some i => some i
      | none => idxOfLast (fun c => decide (1 < c.repetitionCount)) cs := by
  rw [selectSplitAux_spec]
  have h1 := enumFrom_reverse_find?
    (fun c => decide (1 < c.repetitionCount) && c.repetitionParameter.isNone) cs 0
  have h2 := enumFrom_reverse_find? (fun c => decide (1 < c.repetitionCount)) cs 0
  rcases ha : idxOfLast (fun c => decide (1 < c.repetitionCount) &&
      c.repetitionParameter.isNone) cs with _ | i
  · rw [ha] at h1
    simp only [Option.map_none'] at h1
    have hfind : (cs.enum.reverse.find?
        (fun e => decide (1 < e.2.repetitionCount) && e.2.repetitionParameter.isNone)) = none := by
      rcases hf : cs.enum.reverse.find?
          (fun e => decide (1 < e.2.repetitionCount) && e.2.repetitionParameter.isNone) with _ | e
      · exact hf
      · rw [show cs.enum = List.enumFrom 0 cs from rfl] at hf
        rw [hf] at h1
        simp at h1
    rw [show cs.enum = List.enumFrom 0 cs from rfl] at hfind ⊢
    rw [hfind]
    rw [show (List.enumFrom 0 cs).reverse.find? (fun e => decide (1 < e.2.repetitionCount)) =
        (List.enumFrom 0 cs).reverse.find? (fun e =>
          (fun c => decide (1 < c.repetitionCount)) e.2) from rfl] at h2 ⊢
    rw [h2]
    rcases idxOfLast (fun c => decide (1 < c.repetitionCount)) cs with _ | j
    · rfl
    · simp
  · rw [ha] at h1
    rcases hf : cs.enum.reverse.find?
        (fun e => decide (1 < e.2.repetitionCount) && e.2.repetitionParameter.isNone) with _ | e
    · rw [show cs.enum = List.enumFrom 0 cs from rfl] at hf
      rw [hf] at h1
      simp at h1
    · rw [show cs.enum = List.enumFrom 0 cs from rfl] at hf ⊢
      rw [hf] at h1 ⊢
      simp only [Option.map_some', Option.some.injEq] at h1
      simp [h1]

theorem idxOfLast_none_iff (p : Loop → Bool) :
    ∀ cs : List Loop, idxOfLast p cs = none ↔ ∀ c ∈ cs, p c = false := by
  intro cs
  induction cs with
  | nil => simp [idxOfLast]
  | cons c cs ih =>
    rw [idxOfLast]
    rcases h : idxOfLast p cs with _ | j
    · by_cases hp : p c
      · simp only [if_pos hp]
        constructor
        · intro hcon; cases hcon
        · intro hall
          rw [hall c (List.mem_cons_self c cs)] at hp
          cases hp
      · simp only [if_neg hp]
        constructor
        · intro _
          intro d hd
          rcases List.mem_cons.mp hd with rfl | hd'
          · exact Bool.eq_false_iff.mpr hp
          · exact (ih.mp h) d hd'
        · intro _; trivial
    · constructor
      · intro hcon; cases hcon
      · intro hall
        have hnone : idxOfLast p cs = none :=
          ih.mpr (fun d hd => hall d (List.mem_cons_of_mem c hd))
        rw [hnone] at h
        cases h

theorem idxOfLast_spec (p : Loop → Bool) :
    ∀ (cs : List Loop) (i : ℕ), idxOfLast p cs = some i →
      ∃ c, cs.get? i = some c ∧ p c = true ∧
        ∀ j d, i < j → cs.get? j = some d → p d = false := by
  intro cs
  induction cs with
  | nil => intro i h; cases h
  | cons c cs ih =>
    intro i h
    rw [idxOfLast] at h
    rcases hr : idxOfLast p cs with _ | j
    · rw [hr] at h
      by_cases hp : p c
      · rw [if_pos hp] at h
        obtain rfl : i = 0 := by
          cases h; rfl
        refine ⟨c, rfl, hp, ?_⟩
        intro j d hj hget
        match j, hj with
        | j + 1, _ =>
          rw [List.get?_cons_succ] at hget
          exact (idxOfLast_none_iff p cs).mp hr d (List.get?_mem hget)
      · rw [if_neg hp] at h
        cases h
    · rw [hr] at h
      obtain rfl : i = j + 1 := by
        cases h; rfl
      obtain ⟨d0, hget, hpd, htail⟩ := ih j hr
      refine ⟨d0, by rw [List.get?_cons_succ]; exact hget, hpd, ?_⟩
      intro j' d' hj' hget'
      match j', hj' with
      | j' + 1, hj' =>
        rw [List.get?_cons_succ] at hget'
        exact htail j' d' (by omega) hget'

/-- C6: `split_one_child` with an explicit index requires repetition count at
least 2 and fails otherwise; without an index it picks the last child with
repetition count above 1 preferring non-volatile ones, falling back to the
last volatile candidate, and fails with no candidate; the chosen child is
decremented, a repetition-1 structural copy is inserted right after it, and a
volatile chosen child gets the warning and the symbolic rewrite `old - 1`. -/
theorem claim_C6_split_one_child :
    (∀ (l : Loop) (i : ℕ) (child : Loop), l.children.get? i = some child →
      child.repetitionCount < 2 →
      l.splitOneChild (some i) =
        .error "Cannot split child as the repetition count is not larger 1") ∧
    (∀ (l : Loop) (i : ℕ) (child : Loop), l.children.get? i = some child →
      2 ≤ child.repetitionCount →
      l.splitOneChild (some i) = .ok (l.doSplit i child)) ∧
    (∀ (l : Loop) (i : ℕ) (child : Loop),
      (child.repetitionParameter = none →
        l.doSplit i child =
          (l.setChildren (l.children.take i ++
            [child.setRepetitionCount (child.repetitionCount - 1),
             (child.copyTreeStructure.setRepetitionCount 1).withRepetitionParameter none] ++
            l.children.drop (i + 1)), [])) ∧
      (∀ pp, child.repetitionParameter = some pp →
        l.doSplit i child =
          (l.setChildren (l.children.take i ++
            [(child.withRepetitionParameter
                (some (MappedParameter.mk (PExpr.sub pp.expression (PExpr.const 1))
                  pp.ns))).setRepetitionCount (child.repetitionCount - 1),
             (child.copyTreeStructure.setRepetitionCount 1).withRepetitionParameter none] ++
            l.children.drop (i + 1)),
           [QuWarning.volatileModification]))) ∧
    (∀ (l : Loop) (i : ℕ),
      idxOfLast (fun c => decide (1 < c.repetitionCount) &&
        c.repetitionParameter.isNone) l.children = some i →
      ∃ child, l.children.get? i = some child ∧
        l.splitOneChild none = .ok (l.doSplit i child)) ∧
    (∀ (l : Loop) (i : ℕ),
      idxOfLast (fun c => decide (1 < c.repetitionCount) &&
        c.repetitionParameter.isNone) l.children = none →
      idxOfLast (fun c => decide (1 < c.repetitionCount)) l.children = some i →
      ∃ child, l.children.get? i = some child ∧
        l.splitOneChild none = .ok (l.doSplit i child)) ∧
    (∀ (p : Loop → Bool) (cs : List Loop) (i : ℕ), idxOfLast p cs = some i →
      ∃ c, cs.get? i = some c ∧ p c = true ∧
        ∀ j d, i < j → cs.get? j = some d → p d = false) ∧
    (∀ l : Loop, (∀ c ∈ l.children, c.repetitionCount ≤ 1) →
      l.splitOneChild none = .error "There is no child with repetition count larger 1") := by
  refine ⟨?_, ?_, ?_, ?_, ?_, idxOfLast_spec, ?_⟩
  · intro l i child hget hlt
    simp only [Loop.splitOneChild, hget, if_pos hlt]
  · intro l i child hget hge
    simp only [Loop.splitOneChild, hget, if_neg (not_lt.mpr hge)]
  · intro l i child
    constructor
    · intro hp
      unfold Loop.doSplit
      rw [hp]
    · intro pp hp
      cases child with
      | mk cw cm cr cp ccache cc =>
        rw [Loop.repetitionParameter] at hp
        subst hp
        unfold Loop.doSplit
        simp [Loop.repetitionParameter, Loop.repetitionCount, Loop.withRepetitionParameter,
          Loop.setRepetitionCount, Loop.copyTreeStructure]
  · intro l i hsome
    obtain ⟨child, hget, _, _⟩ := idxOfLast_spec _ l.children i hsome
    have hsel := selectSplit_eq_idxOfLast l.children
    rw [hsome] at hsel
    simp only [] at hsel
    refine ⟨child, hget, ?_⟩
    simp only [Loop.splitOneChild, hsel, hget]
  · intro l i hnone hsome
    obtain ⟨child, hget, _, _⟩ := idxOfLast_spec _ l.children i hsome
    have hsel := selectSplit_eq_idxOfLast l.children
    rw [hnone, hsome] at hsel
    simp only [] at hsel
    refine ⟨child, hget, ?_⟩
    simp only [Loop.splitOneChild, hsel, hget]
  · intro l hall
    have h1 : idxOfLast (fun c => decide (1 < c.repetitionCount) &&
        c.repetitionParameter.isNone) l.children = none := by
      rw [idxOfLast_none_iff]
      intro c hc
      simp [not_lt.mpr (hall c hc)]
    have h2 : idxOfLast (fun c => decide (1 < c.repetitionCount)) l.children = none := by
      rw [idxOfLast_none_iff]
      intro c hc
      simp [not_lt.mpr (hall c hc)]
    have hsel := selectSplit_eq_idxOfLast l.children
    rw [h1, h2] at hsel
    simp only [] at hsel
    simp only [Loop.splitOneChild, hsel]

/-- C6 witness: among children with repetition counts 1, 3 (volatile),
2 (non-volatile), 1 the scan picks index 2, decrements it and inserts the
repetition-1 copy after it. -/
theorem claim_C6_witness :
    loopC6.children.get? 2 = some c6nonvol ∧
    idxOfLast (fun c => decide (1 < c.repetitionCount) &&
      c.repetitionParameter.isNone) loopC6.children = some 2 ∧
    loopC6.splitOneChild none =
      .ok (Loop.mk none none 1 none none
            [leafA, c6vol, Loop.mk (some wfB) none 1 none none [],
             Loop.mk (some wfB) none 1 none none [], leafB], []) := by
  have hsel : idxOfLast (fun c => decide (1 < c.repetitionCount) &&
      c.repetitionParameter.isNone) loopC6.children = some 2 := by
    simp [idxOfLast, loopC6, leafA, c6vol, c6nonvol, leafB, Loop.children,
      Loop.repetitionCount, Loop.repetitionParameter]
  refine ⟨rfl, hsel, ?_⟩
  obtain ⟨child, hget, heq⟩ := claim_C6_split_one_child.2.2.2.1 loopC6 2 hsel
  obtain rfl : child = c6nonvol := by
    rw [show loopC6.children.get? 2 = some c6nonvol from rfl] at hget
    exact (Option.some.injEq _ _ ▸ hget).symm
  rw [heq]
  rw [(claim_C6_split_one_child.2.2.1 loopC6 2 c6nonvol).1 rfl]
  simp [loopC6, c6nonvol, Loop.children, Loop.setChildren, Loop.setRepetitionCount,
    Loop.withRepetitionParameter, Loop.copyTreeStructure, Loop.copyTreeStructureList,
    Loop.repetitionCount]

/- ## Compatibility classification lemmas -/

mutual

theorem isCompatible_no_warn : (l : Loop) → ∀ (minLen quantum : ℕ) (sr : ℚ),
    (isCompatible minLen quantum sr l).1 = CompatibilityLevel.compatible →
    (isCompatible minLen quantum sr l).2 = []
  | .mk w m r p cache c, minLen, quantum, sr, h => by
    have hrec := fun hac => childrenAllCompatible_no_warn c minLen quantum sr hac
    rcases hcc : childrenAllCompatible minLen quantum sr c with ⟨ac, ws⟩
    rw [hcc] at hrec
    simp only [isCompatible, hcc] at h ⊢
    split_ifs at h ⊢ <;> simp_all

theorem childrenAllCompatible_no_warn : (ls : List Loop) → ∀ (minLen quantum : ℕ) (sr : ℚ),
    (childrenAllCompatible minLen quantum sr ls).1 = true →
    (childrenAllCompatible minLen quantum sr ls).2 = []
  | [], _, _, _, _ => rfl
  | c0 :: cs, minLen, quantum, sr, h => by
    have hhead := fun hc => isCompatible_no_warn c0 minLen quantum sr hc
    have htail := fun ht => childrenAllCompatible_no_warn cs minLen quantum sr ht
    rcases hic : isCompatible minLen quantum sr c0 with ⟨lvl, w⟩
    rcases hcc : childrenAllCompatible minLen quantum sr cs with ⟨b, ws⟩
    rw [hic] at hhead
    rw [hcc] at htail
    simp only [childrenAllCompatible, hic, hcc] at h ⊢
    by_cases hl : lvl = CompatibilityLevel.compatible
    · simp only [if_pos hl] at h ⊢
      rw [show w = [] from hhead (by rw [hl]), show ws = [] from htail (by simpa using h)]
      rfl
    · simp only [if_neg hl] at h
      cases h

end

theorem isCompatible_level_iff (minLen quantum : ℕ) (sr : ℚ) (l : Loop) :
    ((isCompatible minLen quantum sr l).1 = CompatibilityLevel.incompatibleFraction ↔
      (l.duration * sr).den ≠ 1) ∧
    ((isCompatible minLen quantum sr l).1 = CompatibilityLevel.incompatibleTooShort ↔
      ((l.duration * sr).den = 1 ∧ l.duration * sr < (minLen : ℚ))) ∧
    ((isCompatible minLen quantum sr l).1 = CompatibilityLevel.incompatibleQuantum ↔
      ((l.duration * sr).den = 1 ∧ ¬ l.duration * sr < (minLen : ℚ) ∧
        (l.duration * sr).num % (quantum : ℤ) ≠ 0)) ∧
    ((isCompatible minLen quantum sr l).1 = CompatibilityLevel.compatible ∨
      (isCompatible minLen quantum sr l).1 = CompatibilityLevel.actionRequired →
      ((l.duration * sr).den = 1 ∧ ¬ l.duration * sr < (minLen : ℚ) ∧
        (l.duration * sr).num % (quantum : ℤ) = 0)) := by
  cases l with
  | mk w m r p cache c =>
    rcases hcc : childrenAllCompatible minLen quantum sr c with ⟨ac, ws⟩
    simp only [isCompatible, hcc]
    split_ifs <;> simp_all

theorem rat_multiple_iff (s : ℚ) (q : ℕ) (hden : s.den = 1) :
    (∃ k : ℤ, s = k * q) ↔ s.num % (q : ℤ) = 0 := by
  obtain ⟨n, rfl⟩ := (rat_den_one_iff s).mp hden
  rw [Rat.num_intCast]
  constructor
  · rintro ⟨k, hk⟩
    have hk' : n = k * q := by exact_mod_cast hk
    subst hk'
    simp [Int.mul_emod_left]
  · intro h
    obtain ⟨k, hk⟩ := Int.dvd_of_emod_eq_zero h
    exact ⟨k, by rw [hk]; push_cast; ring⟩

/-- C4: `make_compatible` fails with the fraction error (carrying the sample
count) exactly when the duration in samples is not an integer, with the
too-short error exactly when it is an integer below `min_len`, and with the
quantum error exactly when it is an integer at least `min_len` that is not a
multiple of the quantum; it is a no-op on a compatible program; and on
`action_required` it emits the make-compatible diagnostic and runs
`_make_compatible`. -/
theorem claim_C4_make_compatible_dispatch (l : Loop) (minLen quantum : ℕ) (sr : ℚ)
    (hq : 0 < quantum) :
    0 < quantum ∧
    (makeCompatible l minLen quantum sr = .error (.fraction (l.duration * sr)) ↔
      ¬ ∃ k : ℤ, l.duration * sr = k) ∧
    (makeCompatible l minLen quantum sr = .error (.tooShort (l.duration * sr) minLen) ↔
      ((∃ k : ℤ, l.duration * sr = k) ∧ l.duration * sr < (minLen : ℚ))) ∧
    (makeCompatible l minLen quantum sr = .error (.quantum (l.duration * sr) quantum) ↔
      ((∃ k : ℤ, l.duration * sr = k) ∧ (minLen : ℚ) ≤ l.duration * sr ∧
        ¬ ∃ k : ℤ, l.duration * sr = k * quantum)) ∧
    ((isCompatible minLen quantum sr l).1 = CompatibilityLevel.compatible →
      makeCompatible l minLen quantum sr = .ok (l, [])) ∧
    ((isCompatible minLen quantum sr l).1 = CompatibilityLevel.actionRequired →
      makeCompatible l minLen quantum sr =
        .ok ((makeCompatibleInner minLen quantum sr l).1,
          (isCompatible minLen quantum sr l).2 ++ [QuWarning.makeCompatibleAction] ++
          (makeCompatibleInner minLen quantum sr l).2)) := by
  refine ⟨hq, ?_⟩
  have hiff := isCompatible_level_iff minLen quantum sr l
  have hnw := fun hcp => isCompatible_no_warn l minLen quantum sr hcp
  rcases hic : isCompatible minLen quantum sr l with ⟨lvl, ws⟩
  rw [hic] at hiff hnw
  rcases hin : makeCompatibleInner minLen quantum sr l with ⟨l', ws'⟩
  simp only [makeCompatible, hic, hin]
  have hint : (∃ k : ℤ, l.duration * sr = k) ↔ (l.duration * sr).den = 1 :=
    (rat_den_one_iff (l.duration * sr)).symm
  cases lvl with
  | compatible =>
    have hpass := hiff.2.2.2 (Or.inl rfl)
    refine ⟨?_, ?_, ?_, ?_, ?_⟩
    · constructor
      · intro hcon; cases hcon
      · intro hcon
        exact absurd (hint.mpr hpass.1) hcon
    · constructor
      · intro hcon; cases hcon
      · rintro ⟨_, hlt⟩
        exact absurd hlt hpass.2.1
    · constructor
      · intro hcon; cases hcon
      · rintro ⟨_, _, hmul⟩
        exact (hmul ((rat_multiple_iff (l.duration * sr) quantum hpass.1).mpr hpass.2.2)).elim
    · intro _
      rw [show ws = [] from hnw rfl]
    · intro hcon
      cases hcon
  | actionRequired =>
    have hpass := hiff.2.2.2 (Or.inr rfl)
    refine ⟨?_, ?_, ?_, ?_, ?_⟩
    · constructor
      · intro hcon; cases hcon
      · intro hcon
        exact absurd (hint.mpr hpass.1) hcon
    · constructor
      · intro hcon; cases hcon
      · rintro ⟨_, hlt⟩
        exact absurd hlt hpass.2.1
    · constructor
      · intro hcon; cases hcon
      · rintro ⟨_, _, hmul⟩
        exact (hmul ((rat_multiple_iff (l.duration * sr) quantum hpass.1).mpr hpass.2.2)).elim
    · intro hcon; cases hcon
    · intro _; rfl
  | incompatibleFraction =>
    have hden : (l.duration * sr).den ≠ 1 := hiff.1.mp rfl
    refine ⟨?_, ?_, ?_, ?_, ?_⟩
    · simp only [true_iff, eq_self_iff_true]
      rw [hint]
      simpa using hden
    · constructor
      · intro hcon
        simp at hcon
      · rintro ⟨hk, _⟩
        exact absurd (hint.mp hk) hden
    · constructor
      · intro hcon
        simp at hcon
      · rintro ⟨hk, _⟩
        exact absurd (hint.mp hk) hden
    · intro hcon; cases hcon
    · intro hcon; cases hcon
  | incompatibleTooShort =>
    have hts := hiff.2.1.mp rfl
    have _ := hts
    refine ⟨?_, ?_, ?_, ?_, ?_⟩
    · constructor
      · intro hcon
        simp at hcon
      · intro hcon
        exact absurd (hint.mpr hts.1) hcon
    · simp only [true_iff, eq_self_iff_true]
      exact ⟨hint.mpr hts.1, hts.2⟩
    · constructor
      · intro hcon
        simp at hcon
      · rintro ⟨_, hge, _⟩
        exact absurd hts.2 (not_lt.mpr hge)
    · intro hcon; cases hcon
    · intro hcon; cases hcon
  | incompatibleQuantum =>
    have hqm := hiff.2.2.1.mp rfl
    refine ⟨?_, ?_, ?_, ?_, ?_⟩
    · constructor
      · intro hcon
        simp at hcon
      · intro hcon
        exact absurd (hint.mpr hqm.1) hcon
    · constructor
      · intro hcon
        simp at hcon
      · rintro ⟨_, hlt⟩
        exact absurd hlt hqm.2.1
    · simp only [true_iff, eq_self_iff_true]
      refine ⟨hint.mpr hqm.1, not_lt.mp hqm.2.1, ?_⟩
      intro hk
      exact hqm.2.2 ((rat_multiple_iff (l.duration * sr) quantum hqm.1).mp hk)
    · intro hcon; cases hcon
    · intro hcon; cases hcon

/-- C4 witness: a program of duration 5/2 samples fails with the fraction
error carrying the computed sample count. -/
theorem claim_C4_witness :
    0 < 4 ∧
    makeCompatible leafFrac 8 4 1 = .error (.fraction (leafFrac.duration * 1)) ∧
    leafFrac.duration * 1 = 5 / 2 := by
  have hfrac : ¬ ∃ k : ℤ, leafFrac.duration * 1 = k := by
    have hd : leafFrac.duration * 1 = 5 / 2 := by
      norm_num [leafFrac, Loop.duration, Loop.bodyDuration, Loop.repetitionCount,
        Waveform.duration]
    rw [hd]
    rintro ⟨k, hk⟩
    have h1 : (5 : ℚ) = k * 2 := by linarith
    have h2 : (5 : ℤ) = k * 2 := by exact_mod_cast h1
    omega
  refine ⟨by norm_num, ?_, ?_⟩
  · exact ((claim_C4_make_compatible_dispatch leafFrac 8 4 1 (by norm_num)).2.1).mpr hfrac
  · norm_num [leafFrac, Loop.duration, Loop.bodyDuration, Loop.repetitionCount,
      Waveform.duration]

theorem div_nat_den_one_iff (s : ℚ) (q : ℕ) (hq : 0 < q) :
    (s / (q : ℚ)).den = 1 ↔ ∃ k : ℤ, s = k * q := by
  have hq0 : (q : ℚ) ≠ 0 := Nat.cast_ne_zero.mpr hq.ne'
  rw [rat_den_one_iff]
  constructor
  · rintro ⟨k, hk⟩
    refine ⟨k, ?_⟩
    rw [div_eq_iff hq0] at hk
    exact hk
  · rintro ⟨k, rfl⟩
    exact ⟨k, by field_simp⟩

/-- C3: on an inner node with at least one incompatible child,
`_make_compatible` collapses the children into a single rendered waveform
leaf; the repetition count and volatility are preserved exactly when
`single_run = duration * sample_rate / repetition_count` is an integer
multiple of the quantum and at least `min_len`, and are otherwise reset to 1
and dropped (the rendering then bakes the repetitions in); E5 produces one
sequence-waveform leaf with repetition count 2. -/
theorem claim_C3_compatibility_collapse (minLen quantum : ℕ) (sr : ℚ) (l : Loop)
    (hq : 0 < quantum) (hne : l.children ≠ [])
    (hinc : (l.children.map (fun c => (isCompatible minLen quantum sr c).1)).any
      CompatibilityLevel.isIncompatible = true) :
    (((∃ k : ℤ, l.duration * sr / l.repetitionCount = k * quantum) ∧
        (minLen : ℚ) ≤ l.duration * sr / l.repetitionCount) →
      ((makeCompatibleInner minLen quantum sr l).1.children = [] ∧
       (makeCompatibleInner minLen quantum sr l).1.waveform =
         toWaveform (l.setRepetitionCount 1).copyTreeStructure ∧
       (makeCompatibleInner minLen quantum sr l).1.repetitionCount = l.repetitionCount ∧
       (makeCompatibleInner minLen quantum sr l).1.repetitionParameter = l.repetitionParameter ∧
       (makeCompatibleInner minLen quantum sr l).1.measurements = l.measurements)) ∧
    (¬ ((∃ k : ℤ, l.duration * sr / l.repetitionCount = k * quantum) ∧
        (minLen : ℚ) ≤ l.duration * sr / l.repetitionCount) →
      ((makeCompatibleInner minLen quantum sr l).1.children = [] ∧
       (makeCompatibleInner minLen quantum sr l).1.waveform = toWaveform l.copyTreeStructure ∧
       (makeCompatibleInner minLen quantum sr l).1.repetitionCount = 1 ∧
       (makeCompatibleInner minLen quantum sr l).1.repetitionParameter = none ∧
       (makeCompatibleInner minLen quantum sr l).1.measurements = l.measurements)) ∧
    makeCompatibleInner 8 4 1 loopE5 = (loopE5result, []) := by
  have he5 : makeCompatibleInner 8 4 1 loopE5 = (loopE5result, []) := by
    have h3 : isCompatible 8 4 1 leaf3 = (CompatibilityLevel.incompatibleTooShort, []) := by
      norm_num [isCompatible, leaf3, wf3, Loop.duration, Loop.bodyDuration,
        Loop.repetitionCount, Waveform.duration]
    have h5 : isCompatible 8 4 1 leaf5 = (CompatibilityLevel.incompatibleTooShort, []) := by
      norm_num [isCompatible, leaf5, wf5, Loop.duration, Loop.bodyDuration,
        Loop.repetitionCount, Waveform.duration]
    have hdur : loopE5.duration = 16 := by
      norm_num [loopE5, leaf3, leaf5, wf3, wf5, Loop.duration, Loop.bodyDuration,
        Loop.durationSum, Loop.repetitionCount, Waveform.duration]
    simp only [loopE5, makeCompatibleInner, List.map_cons, List.map_nil, h3, h5]
    norm_num [CompatibilityLevel.isIncompatible, hdur, Loop.duration, Loop.bodyDuration,
      Loop.durationSum, Loop.repetitionCount, Loop.setRepetitionCount, Loop.setWaveform,
      Loop.withRepetitionParameter, Loop.setChildren, Loop.copyTreeStructure,
      Loop.copyTreeStructureList, toWaveform, toWaveformList, leaf3, leaf5, wf3, wf5,
      Waveform.duration, loopE5result, loopE5, Loop.repetitionParameter, Loop.waveform,
      Loop.measurements, Loop.children]
  cases l with
  | mk w m r p cache c =>
    rw [Loop.children] at hne hinc
    match c, hne with
    | c0 :: cs, _ =>
      have hcond : (((c0 :: cs).map (isCompatible minLen quantum sr)).map Prod.fst).any
          CompatibilityLevel.isIncompatible = true := by
        rw [List.map_map]
        exact hinc
      have hbridge := div_nat_den_one_iff
        ((Loop.mk w m r p cache (c0 :: cs)).duration * sr / (Loop.mk w m r p cache (c0 :: cs)).repetitionCount)
        quantum hq
      refine ⟨?_, ?_, he5⟩
      · intro hc
        simp only [makeCompatibleInner, hcond, if_pos, List.any_eq_true] at *
        rw [if_pos ⟨hbridge.mpr hc.1, hc.2⟩]
        simp [Loop.setWaveform, Loop.setRepetitionCount, Loop.withRepetitionParameter,
          Loop.setChildren, Loop.children, Loop.waveform, Loop.repetitionCount,
          Loop.repetitionParameter, Loop.measurements]
      · intro hc
        simp only [makeCompatibleInner, hcond, if_pos, List.any_eq_true] at *
        rw [if_neg (by
          intro hcon
          exact hc ⟨hbridge.mp hcon.1, hcon.2⟩)]
        simp [Loop.setWaveform, Loop.setRepetitionCount, Loop.withRepetitionParameter,
          Loop.setChildren, Loop.children, Loop.waveform, Loop.repetitionCount,
          Loop.repetitionParameter, Loop.measurements]

/-- C3 witness: scenario E5 discharges the hypotheses and takes the
repetition-preserving branch. -/
theorem claim_C3_witness :
    (0 < 4 ∧ loopE5.children ≠ [] ∧
     (loopE5.children.map (fun c => (isCompatible 8 4 1 c).1)).any
       CompatibilityLevel.isIncompatible = true) ∧
    (makeCompatibleInner 8 4 1 loopE5).1.repetitionCount = 2 ∧
    (makeCompatibleInner 8 4 1 loopE5).1.children = [] := by
  have h3 : isCompatible 8 4 1 leaf3 = (CompatibilityLevel.incompatibleTooShort, []) := by
    norm_num [isCompatible, leaf3, wf3, Loop.duration, Loop.bodyDuration,
      Loop.repetitionCount, Waveform.duration]
  have hinc : (loopE5.children.map (fun c => (isCompatible 8 4 1 c).1)).any
      CompatibilityLevel.isIncompatible = true := by
    simp [loopE5, Loop.children, h3, CompatibilityLevel.isIncompatible]
  have hne : loopE5.children ≠ [] := by simp [loopE5, Loop.children]
  have h := claim_C3_compatibility_collapse 8 4 1 loopE5 (by norm_num) hne hinc
  have hdur : loopE5.duration = 16 := by
    norm_num [loopE5, leaf3, leaf5, wf3, wf5, Loop.duration, Loop.bodyDuration,
      Loop.durationSum, Loop.repetitionCount, Waveform.duration]
  have hrep : loopE5.repetitionCount = 2 := rfl
  have hcond : (∃ k : ℤ, loopE5.duration * 1 / loopE5.repetitionCount = k * 4) ∧
      (8 : ℚ) ≤ loopE5.duration * 1 / loopE5.repetitionCount := by
    rw [hdur, hrep]
    norm_num
    exact ⟨2, by norm_num⟩
  obtain ⟨hch, _, hr, _, _⟩ := h.1 hcond
  exact ⟨⟨by norm_num, hne, hinc⟩, by rw [hr, hrep], hch⟩

/- ## The channel-split driver -/

theorem stackMapHasKey_append (acc : StackMap) (e : Finset ℕ × Loop × List Frame) (s : Finset ℕ) :
    stackMapHasKey (acc ++ [e]) s = (stackMapHasKey acc s || decide (e.1 = s)) := by
  simp [stackMapHasKey, List.any_append]

theorem pushSplitEntries_ok (chans : Finset ℕ) (root' : Loop) (stack' : List Frame) :
    ∀ (sets : List (Finset ℕ)) (acc : StackMap), sets.Nodup →
      (∀ s ∈ sets, stackMapHasKey acc s = false ∧ s ⊆ chans) →
      pushSplitEntries chans root' stack' acc sets =
        some (acc ++ sets.map (fun s => (s, root'.copyTreeStructure, stack'))) := by
  intro sets
  induction sets with
  | nil =>
    intro acc _ _
    simp [pushSplitEntries]
  | cons s rest ih =>
    intro acc hnd hcond
    obtain ⟨hkey, hsub⟩ := hcond s (List.mem_cons_self s rest)
    rw [pushSplitEntries]
    rw [if_neg (by rw [hkey]; exact Bool.false_ne_true)]
    rw [if_pos hsub]
    rw [ih (acc ++ [(s, root'.copyTreeStructure, stack')]) (List.Nodup.of_cons hnd) ?_]
    · simp
    · intro s' hs'
      obtain ⟨hk', hsub'⟩ := hcond s' (List.mem_cons_of_mem s hs')
      refine ⟨?_, hsub'⟩
      rw [stackMapHasKey_append, hk']
      have hne : s ≠ s' := fun heq => (List.nodup_cons.mp hnd).1 (heq ▸ hs')
      simp [hne]

theorem pushSplitEntries_some_cond (chans : Finset ℕ) (root' : Loop) (stack' : List Frame) :
    ∀ (sets : List (Finset ℕ)) (acc res : StackMap),
      pushSplitEntries chans root' stack' acc sets = some res →
      ∀ s ∈ sets, stackMapHasKey acc s = false ∧ s ⊆ chans := by
  intro sets
  induction sets with
  | nil =>
    intro acc res _ s hs
    cases hs
  | cons s0 rest ih =>
    intro acc res hpush s hs
    rw [pushSplitEntries] at hpush
    by_cases hk : stackMapHasKey acc s0 = true
    · rw [if_pos hk] at hpush
      cases hpush
    · rw [if_neg hk] at hpush
      by_cases hsub : s0 ⊆ chans
      · rw [if_pos hsub] at hpush
        rcases List.mem_cons.mp hs with rfl | hs'
        · exact ⟨Bool.not_eq_true _ ▸ hk, hsub⟩
        · obtain ⟨hk', hsub'⟩ := ih _ _ hpush s hs'
          refine ⟨?_, hsub'⟩
          rw [stackMapHasKey_append] at hk'
          exact (Bool.or_eq_false_iff.mp hk').1
      · rw [if_neg hsub] at hpush
        cases hpush

/-- C1: when lowering channel set `S` raises `ChannelSplit` with key sets
`Sᵢ`, the driver records no program for `S`, requires every `Sᵢ` to be absent
from the work map and contained in `S` (failing the assertion otherwise), and
pushes one entry per `Sᵢ`, each holding a fresh structural copy of the
partial root loop and the (deep-copied) frame stack at the split position. -/
theorem claim_C1_channel_split_handling (fuel : ℕ) (programs : List (Finset ℕ × Loop))
    (rest : StackMap) (chans : Finset ℕ) (root : Loop) (stack : List Frame)
    (sets : List (Finset ℕ)) (root' : Loop) (stack' : List Frame)
    (hnodup : sets.Nodup)
    (hsplit : processFrames fuel chans root stack = .error (.channelSplit sets root' stack')) :
    ((∀ s ∈ sets, stackMapHasKey rest s = false ∧ s ⊆ chans) →
      driverStep fuel programs (rest ++ [(chans, root, stack)]) =
        .ok (programs, rest ++ sets.map (fun s => (s, root'.copyTreeStructure, stack')))) ∧
    ((¬ ∀ s ∈ sets, stackMapHasKey rest s = false ∧ s ⊆ chans) →
      driverStep fuel programs (rest ++ [(chans, root, stack)]) = .error .assertionFailed) ∧
    (∀ out, driverStep fuel programs (rest ++ [(chans, root, stack)]) = .ok out →
      out.1 = programs) := by
  refine ⟨?_, ?_, ?_⟩
  · intro hcond
    simp only [driverStep, List.getLast?_concat, List.dropLast_concat, hsplit]
    rw [pushSplitEntries_ok chans root' stack' sets rest hnodup hcond]
  · intro hcond
    simp only [driverStep, List.getLast?_concat, List.dropLast_concat, hsplit]
    rcases hpush : pushSplitEntries chans root' stack' rest sets with _ | res
    · simp
    · exact absurd (pushSplitEntries_some_cond chans root' stack' sets rest res hpush) hcond
  · intro out hout
    simp only [driverStep, List.getLast?_concat, List.dropLast_concat, hsplit] at hout
    rcases hpush : pushSplitEntries chans root' stack' rest sets with _ | res
    · rw [hpush] at hout
      cases hout
    · rw [hpush] at hout
      simp only [Except.ok.injEq] at hout
      rw [← hout]

/-- C1 witness: scenario E6 — a CHAN over the sub-channel sets 12 and 3
raised from channel set 123 leads to two fresh work-map entries resuming from
the split position. -/
theorem claim_C1_witness :
    setsW.Nodup ∧
    processFrames 3 chansW rootW stackW = .error (.channelSplit setsW rootW stackW) ∧
    (∀ s ∈ setsW, stackMapHasKey [] s = false ∧ s ⊆ chansW) ∧
    driverStep 3 [] [(chansW, rootW, stackW)] =
      .ok ([], [({1, 2}, rootW, stackW), ({3}, rootW, stackW)]) := by
  have hnd : setsW.Nodup := by decide
  have hsplit : processFrames 3 chansW rootW stackW = .error (.channelSplit setsW rootW stackW) := by
    rfl
  have hcond : ∀ s ∈ setsW, stackMapHasKey [] s = false ∧ s ⊆ chansW := by
    intro s hs
    rcases List.mem_cons.mp hs with rfl | hs'
    · exact ⟨rfl, by decide⟩
    · rcases List.mem_cons.mp hs' with rfl | hs''
      · exact ⟨rfl, by decide⟩
      · cases hs''
  have h := claim_C1_channel_split_handling 3 [] [] chansW rootW stackW setsW rootW stackW
    hnd hsplit
  refine ⟨hnd, hsplit, hcond, ?_⟩
  have hres := h.1 hcond
  simpa [setsW, rootW, Loop.copyTreeStructure, Loop.copyTreeStructureList] using hres
